import Mathlib

/-!
# Verification of the Telethon documentation generator (`docs/generate.py`)

A shallow embedding of the path-resolution and cross-reference logic of the
documentation generator.  Python strings are modelled as Lean `String`
(operated on through `List Char`), Python dictionaries (insertion ordered)
as association lists, and the filesystem queried by `os.path.isfile` as an
explicit oracle `isfile : String → Bool`.  Operations that can raise on
malformed input (the two-way destructuring of `str.split`) return `Option`.
-/

namespace Generate

/-- ASCII upper-case letter test, modelling the regex class `[A-Z]`. -/
def isUpperA (c : Char) : Bool := 'A' ≤ c && c ≤ 'Z'

/-- ASCII lower-case letter test, modelling the regex class `[a-z]`. -/
def isLowerA (c : Char) : Bool := 'a' ≤ c && c ≤ 'z'

/-- ASCII digit test, together with `isLowerA` modelling the class `[a-z0-9]`. -/
def isDigitA (c : Char) : Bool := '0' ≤ c && c ≤ '9'

/-- ASCII lower-casing of one character, modelling Python `str.lower` on the
ASCII identifiers the generator handles. -/
def asciiLower (c : Char) : Char :=
  if isUpperA c then Char.ofNat (c.toNat + 32) else c

/-- ASCII upper-casing of one character, modelling Python `str.upper` on a
single lower-case letter (as used in `m.group(1).upper()`). -/
def asciiUpper (c : Char) : Char :=
  if isLowerA c then Char.ofNat (c.toNat - 32) else c

/-- Python `s.lower()` on an ASCII string. -/
def strLower (s : String) : String := String.mk (s.toList.map asciiLower)

/-- First regex pass of `get_file_name`:
`re.sub('(.)([A-Z][a-z]+)', r'\1_\2', name)`.
The scan is left to right and non-overlapping: a match needs any character
other than a newline, an upper-case letter, and a maximal non-empty run of
lower-case letters; the whole match is consumed and an underscore inserted
after its first character. -/
def pass1F : Nat → List Char → List Char
  | 0, l => l
  | _ + 1, [] => []
  | _ + 1, [c] => [c]
  | fuel + 1, c :: u :: more =>
    if c ≠ '\n' && isUpperA u && (match more with | m :: _ => isLowerA m | [] => false) then
      c :: '_' :: u :: (more.takeWhile isLowerA ++ pass1F fuel (more.dropWhile isLowerA))
    else
      c :: pass1F fuel (u :: more)

/-- `pass1` with enough fuel for the whole scan (the scan advances by at
least one character per step, so the length of the input suffices). -/
def pass1 (l : List Char) : List Char := pass1F l.length l

/-- Second regex pass of `get_file_name`:
`re.sub('([a-z0-9])([A-Z])', r'\1_\2', s1)`.
A match is a lower-case letter or digit immediately followed by an upper-case
letter; both characters are consumed. -/
def pass2F : Nat → List Char → List Char
  | 0, l => l
  | _ + 1, [] => []
  | _ + 1, [c] => [c]
  | fuel + 1, c :: u :: more =>
    if (isLowerA c || isDigitA c) && isUpperA u then
      c :: '_' :: u :: pass2F fuel more
    else
      c :: pass2F fuel (u :: more)

/-- `pass2` with enough fuel for the whole scan. -/
def pass2 (l : List Char) : List Char := pass2F l.length l

/-- `get_file_name` (string form): camel-case to `file_name_format`, with
the optional `.html` extension.  Mirrors the two regex passes followed by
`.lower()` in the source. -/
def get_file_name (name : String) (add_extension : Bool) : String :=
  let s1 := String.mk (pass1 name.toList)
  let result := strLower (String.mk (pass2 s1.toList))
  if add_extension then result ++ ".html" else result

/-- The substitution `re.sub(r'_([a-z])', lambda m: m.group(1).upper(), name)`
of `get_class_name`: an underscore followed by a lower-case letter is replaced
by the upper-cased letter; the scan is left to right, non-overlapping. -/
def subUnderscoreF : Nat → List Char → List Char
  | 0, l => l
  | _ + 1, [] => []
  | _ + 1, [c] => [c]
  | fuel + 1, c :: d :: more =>
    if c = '_' && isLowerA d then
      asciiUpper d :: subUnderscoreF fuel more
    else
      c :: subUnderscoreF fuel (d :: more)

/-- `subUnderscore` with enough fuel for the whole scan. -/
def subUnderscore (l : List Char) : List Char := subUnderscoreF l.length l

/-- `get_class_name` (string form): after the underscore substitution, the
first character is upper-cased and every remaining underscore of the tail is
removed (`result[:1].upper() + result[1:].replace('_', '')`). -/
def get_class_name (name : String) : String :=
  let result := subUnderscore name.toList
  match result with
  | [] => ""
  | c :: rest => String.mk (asciiUpper c :: rest.filter (fun x => x ≠ '_'))

/-- One argument of a schema object, with the flag booleans read by the
generator (`is_flag`, `is_vector`, `is_generic`, `flag_indicator`,
`generic_definition`). -/
structure Arg where
  name : String
  type : String
  is_flag : Bool
  is_vector : Bool
  is_generic : Bool
  flag_indicator : Bool
  generic_definition : Bool
deriving DecidableEq

/-- A parsed schema object (`TLObject` from `telethon_generator.parser`),
restricted to the fields the generator reads.  `nspace` models the
`namespace` attribute, with `""` standing for the falsy values (`None` or
the empty string); `result` is the attribute read unconditionally at the
index-building step for functions and non-functions alike. -/
structure TLObject where
  name : String
  nspace : String
  is_function : Bool
  result : String
  args : List Arg
deriving DecidableEq

/-- `get_class_name` applied to a full `TLObject`: the transformation runs on
the object's `name`, and the literal suffix `Request` is appended iff the
object is a function. -/
def get_class_name_obj (t : TLObject) : String :=
  get_class_name t.name ++ (if t.is_function then "Request" else "")

/-- `get_file_name` applied to a full `TLObject`: runs on the object's name. -/
def get_file_name_obj (t : TLObject) (add_extension : Bool) : String :=
  get_file_name t.name add_extension

/-- Whether a path string starts with the separator `/`. -/
def startsWithSlash (s : String) : Bool :=
  match s.toList with
  | c :: _ => c = '/'
  | [] => false

/-- Whether a path string ends with the separator `/` (the last character
is the head of the reversed character list). -/
def endsWithSlash (s : String) : Bool :=
  match s.toList.reverse with
  | c :: _ => c = '/'
  | [] => false

/-- `os.path.join` for two path segments on a POSIX system: an absolute
second segment replaces the first; otherwise the segments are joined with a
single `/` separator. -/
def pathJoin (a b : String) : String :=
  if startsWithSlash b then b
  else if a = "" || endsWithSlash a then a ++ b
  else a ++ "/" ++ b

/-- The prefix of `p` up to and including its last `/` (the local `head` of
`posixpath.dirname`), as a character list. -/
def dirnameHead (p : String) : List Char :=
  (p.toList.reverse.dropWhile (fun c => c ≠ '/')).reverse

/-- `os.path.dirname` on a POSIX system: everything before the last `/`,
with trailing separators stripped unless the result consists of separators
only. -/
def dirname (p : String) : String :=
  if (dirnameHead p).all (fun c => c = '/') then String.mk (dirnameHead p)
  else String.mk ((dirnameHead p).reverse.dropWhile (fun c => c = '/')).reverse

/-- Worker for splitting a character list at every occurrence of `sep`:
`acc` holds the reversed characters of the part being accumulated. -/
def splitSepAux (sep : Char) : List Char → List Char → List String
  | [], acc => [String.mk acc.reverse]
  | c :: rest, acc =>
    if c = sep then String.mk acc.reverse :: splitSepAux sep rest []
    else splitSepAux sep rest (c :: acc)

/-- Python `s.split(sep)` for a one-character separator: the parts of `s`
between the separators; the empty string yields `[""]`, and adjacent
separators yield empty parts. -/
def splitOnChar (sep : Char) (s : String) : List String := splitSepAux sep s.toList []

/-- Joining path components with `/`, as `os.path.join(*rel_list)` does for
relative components. -/
def joinPath : List String → String
  | [] => ""
  | [x] => x
  | x :: rest => x ++ "/" ++ joinPath rest

/-- The component list of a relative path as `os.path.relpath` sees it after
normalisation: split on `/`, dropping empty components and `.` components.
This models `os.path.relpath` for the already-normalised relative paths
(no `..` segments) that the generator works with, where the current working
directory prefix added by `abspath` cancels between the two sides. -/
def pathComponents (p : String) : List String :=
  (splitOnChar '/' p).filter (fun s => s ≠ "" && s ≠ ".")

/-- Length of the longest common prefix of two component lists, as computed
by the common-prefix loop of `os.path.relpath`. -/
def commonPrefixLen : List String → List String → Nat
  | a :: as, b :: bs => if a = b then commonPrefixLen as bs + 1 else 0
  | _, _ => 0

/-- The component list `rel_list` of `os.path.relpath`: climb out of the
non-shared part of `start` with `..` segments, then descend into the
non-shared part of `path`. -/
def relParts (path start : String) : List String :=
  List.replicate
      ((pathComponents start).length -
        commonPrefixLen (pathComponents start) (pathComponents path)) ".." ++
    (pathComponents path).drop
      (commonPrefixLen (pathComponents start) (pathComponents path))

/-- `os.path.relpath(path, start)` for relative, `..`-free paths; an empty
component list is the current directory `.`. -/
def relpath (path start : String) : String :=
  if (relParts path start).isEmpty then "." else joinPath (relParts path start)

/-- `get_relative_path`: if `relative_to` names an existing file (the
`os.path.isfile` query is the explicit oracle `isfile`), its containing
directory becomes the base; the result is `destination` relative to the
base. -/
def get_relative_path (isfile : String → Bool) (destination relative_to : String) : String :=
  let base := if isfile relative_to then dirname relative_to else relative_to
  relpath destination base

/-- The `out_dir` of `get_create_path_for`: root `methods` for functions and
`constructors` otherwise, joined with one namespace level when the
namespace is truthy. -/
def tlOutDir (t : TLObject) : String :=
  if t.nspace ≠ "" then
    pathJoin (if t.is_function then "methods" else "constructors") t.nspace
  else
    if t.is_function then "methods" else "constructors"

/-- `get_create_path_for` minus its directory-creation side effect: the
output directory joined with the file name carrying the extension. -/
def get_create_path_for (t : TLObject) : String :=
  pathJoin (tlOutDir t) (get_file_name_obj t true)

/-- The closed set of core type names special-cased by `get_path_for_type`. -/
def coreTypes : List String :=
  ["int", "long", "int128", "int256", "double",
   "vector", "string", "bool", "true", "bytes", "date"]

/-- Python `s.split('.')`: the parts of `s` between the dots; the empty
string yields `[""]`, and adjacent dots yield empty parts. -/
def splitOnDot (s : String) : List String := splitOnChar '.' s

/-- `get_path_for_type`: a core type key (case-insensitive) targets the fixed
core index page with the lower-cased key as fragment anchor; a key holding a
dot is destructured into namespace and name, which raises (`none`) unless the
split yields exactly two parts; a bare key targets `types/` directly.  The
chosen target is finally made relative to `relative_to`. -/
def get_path_for_type (isfile : String → Bool) (type relative_to : String) : Option String :=
  if coreTypes.contains (strLower type) then
    some (get_relative_path isfile ("core/index.html#" ++ strLower type) relative_to)
  else if type.toList.contains '.' then
    match splitOnDot type with
    | [ns, nm] =>
      some (get_relative_path isfile ("types/" ++ ns ++ "/" ++ get_file_name nm true) relative_to)
    | _ => none
  else
    some (get_relative_path isfile ("types/" ++ get_file_name type true) relative_to)

/-- The comparison underlying Python `sorted(..., key=lambda a: a.is_flag)`:
`False` sorts before `True`. -/
def boolLe (x y : Bool) : Bool := !x || y

/-- Stable insertion of an argument into an already sorted list: the new
element goes before the first element whose key is not smaller, which keeps
elements with equal keys in their original relative order. -/
def insortFlag (a : Arg) : List Arg → List Arg
  | [] => [a]
  | b :: rest => if boolLe a.is_flag b.is_flag then a :: b :: rest else b :: insortFlag a rest

/-- Python `sorted(args, key=lambda a: a.is_flag)`: a stable sort on the
single boolean key `is_flag`, modelled by stable insertion sort. -/
def pySortedFlag (xs : List Arg) : List Arg := xs.foldr insortFlag []

/-- The list-comprehension filter of the parameter table: flag-indicator and
generic-definition pseudo-arguments are not displayed. -/
def displayableArgs (t : TLObject) : List Arg :=
  t.args.filter (fun a => !a.flag_indicator && !a.generic_definition)

/-- The argument list as rendered in the parameter table:
`sorted([a for a in tlobject.args if not a.flag_indicator and not
a.generic_definition], key=lambda a: a.is_flag)`. -/
def sortedArgs (t : TLObject) : List Arg := pySortedFlag (displayableArgs t)

/-- An insertion-ordered Python dictionary from type keys to lists of
objects, modelled as an association list. -/
abbrev Dict := List (String × List TLObject)

/-- Dictionary lookup: the value at the first (and by construction only)
entry carrying the key. -/
def dictFind (d : Dict) (k : String) : Option (List TLObject) :=
  match d with
  | [] => none
  | (k', v) :: rest => if k' = k then some v else dictFind rest k

/-- One step of the index-building loop body:
`if key in dictionary: dictionary[key].append(obj) else: dictionary[key] = [obj]`.
An existing entry is extended in place (keeping its position); a new key is
appended at the end, matching dict insertion order. -/
def addToDict (d : Dict) (k : String) (o : TLObject) : Dict :=
  match d with
  | [] => [(k, [o])]
  | (k', v) :: rest => if k' = k then (k', v ++ [o]) :: rest else (k', v) :: addToDict rest k o

/-- One iteration of the index-building loop: the target dictionary is
selected by `is_function`, and the object is filed under its `result`. -/
def indexStep (acc : Dict × Dict) (t : TLObject) : Dict × Dict :=
  if t.is_function then (acc.1, addToDict acc.2 t.result t)
  else (addToDict acc.1 t.result t, acc.2)

/-- The cross-reference index built from the whole collection:
first component `tltypes`, second component `tlfunctions`. -/
def buildIndexes (objs : List TLObject) : Dict × Dict :=
  objs.foldl indexStep ([], [])

/-- The `tltypes` dictionary of `generate_documentation`. -/
def tltypes (objs : List TLObject) : Dict := (buildIndexes objs).1

/-- The `tlfunctions` dictionary of `generate_documentation`. -/
def tlfunctions (objs : List TLObject) : Dict := (buildIndexes objs).2

/-- The constructor-count sentence of a type page (`if not constructors: ...
elif len(constructors) == 1: ... else: ...`). -/
def constructorsSentence (constructors : List TLObject) : String :=
  if constructors.isEmpty then "This type has no constructors available."
  else if constructors.length = 1 then "This type has one constructor available."
  else "This type has " ++ toString constructors.length ++ " constructors available."

/-- The method-count sentence of a type page. -/
def methodsSentence (functions : List TLObject) : String :=
  if functions.isEmpty then "No method returns this type."
  else if functions.length = 1 then "Only the following method returns this type."
  else "The following " ++ toString functions.length ++ " methods return this type as a result."

/-- A sample constructor: `resolved_peer#7f077ad9 ... = ResolvedPeer` from the
scheme.  Its name and its result differ. -/
def sampleCtor : TLObject :=
  { name := "resolved_peer", nspace := "", is_function := false,
    result := "ResolvedPeer", args := [] }

/-- A sample function object named `get_full_user`. -/
def sampleFn : TLObject :=
  { name := "get_full_user", nspace := "", is_function := true,
    result := "UserFull", args := [] }

/-- A sample flag argument named `flagA`. -/
def argFlagA : Arg :=
  { name := "flagA", type := "int", is_flag := true, is_vector := false,
    is_generic := false, flag_indicator := false, generic_definition := false }

/-- A sample plain argument named `plain1`. -/
def argPlain1 : Arg :=
  { name := "plain1", type := "int", is_flag := false, is_vector := false,
    is_generic := false, flag_indicator := false, generic_definition := false }

/-- A sample plain argument named `plain2`. -/
def argPlain2 : Arg :=
  { name := "plain2", type := "string", is_flag := false, is_vector := false,
    is_generic := false, flag_indicator := false, generic_definition := false }

/-- A sample flag argument named `flagB`. -/
def argFlagB : Arg :=
  { name := "flagB", type := "string", is_flag := true, is_vector := false,
    is_generic := false, flag_indicator := false, generic_definition := false }

/-- An object carrying the argument list of the stable-sort example. -/
def sortExampleObj : TLObject :=
  { name := "example_obj", nspace := "", is_function := true, result := "Bool",
    args := [argFlagA, argPlain1, argPlain2, argFlagB] }

end Generate

namespace Generate

/-- Claim C1: for every type key whose lower-casing lies in the closed
core-type set and for every value of `relative_to` (and any filesystem
state), `get_path_for_type` succeeds and resolves the key to the fixed
target `core/index.html` carrying a fragment anchor equal to the
lower-cased key; `relative_to` only rebases that one fixed target. -/
theorem core_type_fixed_target (type relative_to : String) (isfile : String → Bool)
    (h : coreTypes.contains (strLower type) = true) :
    get_path_for_type isfile type relative_to =
      some (get_relative_path isfile ("core/index.html#" ++ strLower type) relative_to) := by
  unfold get_path_for_type
  rw [h]
  simp

/-- Witness for C1 at the key `Int` (upper-cased, exercising the
case-insensitive match) and `relative_to = "methods"`. -/
theorem core_type_fixed_target_witness :
    coreTypes.contains (strLower "Int") = true ∧
    get_path_for_type (fun _ => false) "Int" "methods" =
      some (get_relative_path (fun _ => false) ("core/index.html#" ++ strLower "Int") "methods") :=
  ⟨by decide, core_type_fixed_target "Int" "methods" (fun _ => false) (by decide)⟩

/-- Claim C4: `get_file_name` lower-cases camel-case identifiers inserting
underscores at hump boundaries via the two regex passes; on `GetFullUser` it
yields `get_full_user`, with the extension `get_full_user.html`, and in
general the `add_extension` variant is the plain variant plus `.html`. -/
theorem file_name_two_pass (name : String) :
    get_file_name "GetFullUser" false = "get_full_user" ∧
    get_file_name "GetFullUser" true = "get_full_user.html" ∧
    get_file_name name true = get_file_name name false ++ ".html" := by
  refine ⟨by decide, by decide, ?_⟩
  simp [get_file_name]

/-- Claim C5: `get_class_name` turns `get_full_user` into `GetFullUser`,
and on a function object the literal suffix `Request` is appended to the
transformed name. -/
theorem class_name_pascal :
    get_class_name "get_full_user" = "GetFullUser" ∧
    (∀ t : TLObject, t.is_function = true →
      get_class_name_obj t = get_class_name t.name ++ "Request") ∧
    get_class_name_obj sampleFn = "GetFullUserRequest" := by
  refine ⟨by decide, ?_, by decide⟩
  intro t ht
  simp [get_class_name_obj, ht]

/-- Witness for C5 at the concrete function object `sampleFn`. -/
theorem class_name_pascal_witness :
    sampleFn.is_function = true ∧
    get_class_name_obj sampleFn = get_class_name sampleFn.name ++ "Request" :=
  ⟨by decide, class_name_pascal.2.1 sampleFn (by decide)⟩

/-- Claim C7: the constructor-count sentence of a type page is selected by
the exact count (zero, one, many with the literal count), and the
method-count section uses the analogous phrasing. -/
theorem count_sentences (cs fs : List TLObject) :
    (cs.length = 0 → constructorsSentence cs = "This type has no constructors available.") ∧
    (cs.length = 1 → constructorsSentence cs = "This type has one constructor available.") ∧
    (2 ≤ cs.length →
      constructorsSentence cs = "This type has " ++ toString cs.length ++ " constructors available.") ∧
    (fs.length = 0 → methodsSentence fs = "No method returns this type.") ∧
    (fs.length = 1 → methodsSentence fs = "Only the following method returns this type.") ∧
    (2 ≤ fs.length →
      methodsSentence fs = "The following " ++ toString fs.length ++ " methods return this type as a result.") := by
  refine ⟨?_, ?_, ?_, ?_, ?_, ?_⟩ <;> intro h
  · rw [List.length_eq_zero] at h; subst h; rfl
  · have h1 : cs.isEmpty = false := by cases cs <;> simp_all
    simp [constructorsSentence, h1, h]
  · have h1 : cs.isEmpty = false := by cases cs <;> simp_all
    have h2 : ¬ cs.length = 1 := by omega
    simp [constructorsSentence, h1, h2]
  · rw [List.length_eq_zero] at h; subst h; rfl
  · have h1 : fs.isEmpty = false := by cases fs <;> simp_all
    simp [methodsSentence, h1, h]
  · have h1 : fs.isEmpty = false := by cases fs <;> simp_all
    have h2 : ¬ fs.length = 1 := by omega
    simp [methodsSentence, h1, h2]

/-- Inserting a non-flag argument into any list places it at the front:
`false` is the least key. -/
theorem insortFlag_nonflag (a : Arg) (ha : a.is_flag = false) (l : List Arg) :
    insortFlag a l = a :: l := by
  cases l with
  | nil => rfl
  | cons b rest => simp [insortFlag, boolLe, ha]

/-- Inserting a flag argument skips over every non-flag argument. -/
theorem insortFlag_skip (a : Arg) (ha : a.is_flag = true) (N F : List Arg)
    (hN : ∀ b ∈ N, b.is_flag = false) :
    insortFlag a (N ++ F) = N ++ insortFlag a F := by
  induction N with
  | nil => rfl
  | cons b rest ih =>
    have hb : b.is_flag = false := hN b (by simp)
    simp only [List.cons_append, insortFlag, boolLe, ha, hb]
    simp [ih (fun x hx => hN x (by simp [hx]))]

/-- Inserting a flag argument in front of a list of flag arguments keeps it
first: the keys are equal, so the stable insertion stops immediately. -/
theorem insortFlag_front (a : Arg) (ha : a.is_flag = true) (F : List Arg)
    (hF : ∀ b ∈ F, b.is_flag = true) :
    insortFlag a F = a :: F := by
  cases F with
  | nil => rfl
  | cons b rest =>
    have hb : b.is_flag = true := hF b (by simp)
    simp [insortFlag, boolLe, ha, hb]

/-- The stable sort on the boolean key `is_flag` is exactly: all non-flag
elements in their original order, then all flag elements in theirs. -/
theorem pySortedFlag_eq_filters (xs : List Arg) :
    pySortedFlag xs =
      xs.filter (fun a => !a.is_flag) ++ xs.filter (fun a => a.is_flag) := by
  induction xs with
  | nil => rfl
  | cons x rest ih =>
    have hN : ∀ b ∈ rest.filter (fun a => !a.is_flag), b.is_flag = false := by
      intro b hb
      have := List.of_mem_filter hb
      simpa using this
    have hF : ∀ b ∈ rest.filter (fun a => a.is_flag), b.is_flag = true := by
      intro b hb
      have := List.of_mem_filter hb
      simpa using this
    cases hx : x.is_flag with
    | false =>
      simp only [pySortedFlag, List.foldr_cons] at ih ⊢
      rw [ih, insortFlag_nonflag x hx]
      simp [List.filter_cons, hx]
    | true =>
      simp only [pySortedFlag, List.foldr_cons] at ih ⊢
      rw [ih, insortFlag_skip x hx _ _ hN,
          insortFlag_front x hx _ hF]
      simp [List.filter_cons, hx]

/-- Claim C6: the rendered parameter table keeps only displayable arguments
(neither flag-indicator nor generic-definition) and orders them by a stable
sort on `is_flag` alone: non-flag arguments first, flag arguments last, each
group in original order; on `[flagA, plain1, plain2, flagB]` this renders
`[plain1, plain2, flagA, flagB]`. -/
theorem args_stable_flag_sort :
    (∀ t : TLObject,
      sortedArgs t =
        (displayableArgs t).filter (fun a => !a.is_flag) ++
        (displayableArgs t).filter (fun a => a.is_flag)) ∧
    sortedArgs sortExampleObj = [argPlain1, argPlain2, argFlagA, argFlagB] := by
  constructor
  · intro t
    exact pySortedFlag_eq_filters (displayableArgs t)
  · decide

/-- A successful dictionary lookup is a membership fact. -/
theorem dictFind_mem {d : Dict} {k : String} {v : List TLObject}
    (h : dictFind d k = some v) : (k, v) ∈ d := by
  induction d with
  | nil => simp [dictFind] at h
  | cons p rest ih =>
    obtain ⟨k', v'⟩ := p
    by_cases hk : k' = k
    · subst hk
      simp [dictFind] at h
      simp [h]
    · simp [dictFind, hk] at h
      exact List.mem_cons_of_mem _ (ih h)

/-- `addToDict` never stores an empty list: a fresh entry starts as a
one-element list and an existing entry only grows. -/
theorem addToDict_nonempty {d : Dict} (k : String) (o : TLObject)
    (h : ∀ p ∈ d, p.2 ≠ []) :
    ∀ p ∈ addToDict d k o, p.2 ≠ [] := by
  induction d with
  | nil => simp [addToDict]
  | cons q rest ih =>
    obtain ⟨k', v⟩ := q
    by_cases hk : k' = k
    · subst hk
      simp only [addToDict, if_pos rfl]
      intro p hp
      rcases List.mem_cons.mp hp with h1 | h1
      · subst h1; simp
      · exact h p (List.mem_cons_of_mem _ h1)
    · simp only [addToDict, if_neg hk]
      intro p hp
      rcases List.mem_cons.mp hp with h1 | h1
      · subst h1; exact h _ (by simp)
      · exact ih (fun q hq => h q (List.mem_cons_of_mem _ hq)) p h1

/-- Both components of the accumulator keep all their values non-empty
through the whole index-building fold. -/
theorem buildIndexes_fold_nonempty (objs : List TLObject) (acc : Dict × Dict)
    (h1 : ∀ p ∈ acc.1, p.2 ≠ []) (h2 : ∀ p ∈ acc.2, p.2 ≠ []) :
    (∀ p ∈ (objs.foldl indexStep acc).1, p.2 ≠ []) ∧
    (∀ p ∈ (objs.foldl indexStep acc).2, p.2 ≠ []) := by
  induction objs generalizing acc with
  | nil => exact ⟨h1, h2⟩
  | cons t rest ih =>
    simp only [List.foldl_cons]
    apply ih
    · unfold indexStep
      split
      · exact h1
      · exact addToDict_nonempty _ _ h1
    · unfold indexStep
      split
      · exact addToDict_nonempty _ _ h2
      · exact h2

/-- Claim C9: for every input collection, every constructor list stored in
the built `tltypes` index is non-empty (created with one element, only ever
appended to), so the branch emitting
"This type has no constructors available." is never taken for a generated
type page. -/
theorem tltypes_values_nonempty (objs : List TLObject) (k : String)
    (cs : List TLObject) (h : dictFind (tltypes objs) k = some cs) :
    cs ≠ [] ∧ 1 ≤ cs.length ∧ cs.isEmpty = false := by
  have hne : cs ≠ [] := by
    have hmem := dictFind_mem h
    have := (buildIndexes_fold_nonempty objs ([], []) (by simp) (by simp)).1
    exact this (k, cs) hmem
  refine ⟨hne, ?_, ?_⟩
  · cases cs with
    | nil => exact absurd rfl hne
    | cons a rest => simp
  · cases cs with
    | nil => exact absurd rfl hne
    | cons a rest => rfl

/-- Witness for C9: the one-constructor collection `[sampleCtor]`, looked up
at its result type. -/
theorem tltypes_values_nonempty_witness :
    dictFind (tltypes [sampleCtor]) "ResolvedPeer" = some [sampleCtor] ∧
    ([sampleCtor] : List TLObject) ≠ [] ∧ 1 ≤ ([sampleCtor] : List TLObject).length ∧
    ([sampleCtor] : List TLObject).isEmpty = false :=
  ⟨by decide, tltypes_values_nonempty [sampleCtor] "ResolvedPeer" [sampleCtor] (by decide)⟩

/-- After adding an object under key `k`, the lookup at `k` succeeds and
contains the object. -/
theorem addToDict_found (d : Dict) (k : String) (o : TLObject) :
    ∃ cs, dictFind (addToDict d k o) k = some cs ∧ o ∈ cs := by
  induction d with
  | nil => exact ⟨[o], by simp [addToDict, dictFind]⟩
  | cons q rest ih =>
    obtain ⟨k', v⟩ := q
    by_cases hk : k' = k
    · subst hk
      exact ⟨v ++ [o], by simp [addToDict, dictFind]⟩
    · obtain ⟨cs, hfind, hmem⟩ := ih
      exact ⟨cs, by simp [addToDict, dictFind, hk, hfind], hmem⟩

/-- Adding an object never removes a previously filed object from the list
it was filed under. -/
theorem addToDict_keeps (d : Dict) (k k' : String) (o t : TLObject)
    (h : ∃ cs, dictFind d k = some cs ∧ t ∈ cs) :
    ∃ cs', dictFind (addToDict d k' o) k = some cs' ∧ t ∈ cs' := by
  induction d with
  | nil => simp [dictFind] at h
  | cons q rest ih =>
    obtain ⟨k₀, v⟩ := q
    obtain ⟨cs, hfind, hmem⟩ := h
    by_cases hk0 : k₀ = k'
    · subst hk0
      by_cases hkk : k₀ = k
      · subst hkk
        have hvc : v = cs := by simpa [dictFind] using hfind
        refine ⟨v ++ [o], by simp [addToDict, dictFind], ?_⟩
        rw [hvc]
        simp [hmem]
      · simp only [dictFind, if_neg hkk] at hfind
        exact ⟨cs, by simp [addToDict, dictFind, hkk, hfind], hmem⟩
    · by_cases hkk : k₀ = k
      · subst hkk
        have hvc : v = cs := by simpa [dictFind] using hfind
        refine ⟨v, by simp [addToDict, dictFind, hk0], ?_⟩
        rw [hvc]
        exact hmem
      · simp only [dictFind, if_neg hkk] at hfind
        obtain ⟨cs', hfind', hmem'⟩ := ih ⟨cs, hfind, hmem⟩
        exact ⟨cs', by simp [addToDict, dictFind, hk0, hkk, hfind'], hmem'⟩

/-- A filed-object fact about either component of the accumulator survives
the rest of the index-building fold. -/
theorem foldl_indexStep_keeps (objs : List TLObject) (acc : Dict × Dict)
    (k : String) (t : TLObject) :
    ((∃ cs, dictFind acc.1 k = some cs ∧ t ∈ cs) →
      ∃ cs, dictFind (objs.foldl indexStep acc).1 k = some cs ∧ t ∈ cs) ∧
    ((∃ cs, dictFind acc.2 k = some cs ∧ t ∈ cs) →
      ∃ cs, dictFind (objs.foldl indexStep acc).2 k = some cs ∧ t ∈ cs) := by
  induction objs generalizing acc with
  | nil => exact ⟨id, id⟩
  | cons x rest ih =>
    simp only [List.foldl_cons]
    constructor
    · intro h
      refine (ih (indexStep acc x)).1 ?_
      unfold indexStep
      split
      · exact h
      · exact addToDict_keeps _ _ _ _ _ h
    · intro h
      refine (ih (indexStep acc x)).2 ?_
      unfold indexStep
      split
      · exact addToDict_keeps _ _ _ _ _ h
      · exact h

/-- Counterexample to C2 as stated: the constructor `resolved_peer`
(producing the type `ResolvedPeer`) is not grouped under its own name —
the lookup of the built type index at the constructor's name fails, while
the lookup at the constructor's `result` succeeds.  The grouping key for
non-function objects is their `result` field, exactly as for functions. -/
theorem ctor_not_grouped_by_own_name :
    sampleCtor.is_function = false ∧
    dictFind (tltypes [sampleCtor]) sampleCtor.name = none ∧
    dictFind (tltypes [sampleCtor]) sampleCtor.result = some [sampleCtor] := by
  decide

/-- Every object of the collection ends up filed under its `result` in the
component of the accumulator selected by `is_function`, whatever the
starting accumulator. -/
theorem foldl_indexStep_mem (objs : List TLObject) (acc : Dict × Dict)
    (t : TLObject) (hmem : t ∈ objs) :
    (t.is_function = false →
      ∃ cs, dictFind (objs.foldl indexStep acc).1 t.result = some cs ∧ t ∈ cs) ∧
    (t.is_function = true →
      ∃ cs, dictFind (objs.foldl indexStep acc).2 t.result = some cs ∧ t ∈ cs) := by
  induction objs generalizing acc with
  | nil => simp at hmem
  | cons x rest ih =>
    simp only [List.foldl_cons]
    rcases List.mem_cons.mp hmem with hx | hx
    · subst hx
      constructor
      · intro hfn
        refine (foldl_indexStep_keeps rest (indexStep acc t) t.result t).1 ?_
        simp only [indexStep, hfn, Bool.false_eq_true, if_false]
        exact addToDict_found _ _ _
      · intro hfn
        refine (foldl_indexStep_keeps rest (indexStep acc t) t.result t).2 ?_
        simp only [indexStep, hfn, if_true]
        exact addToDict_found _ _ _
    · exact ih (indexStep acc x) hx

/-- Claim C2 (amended): both associations of the cross-reference index are
keyed by the object's `result` field — each non-function object is filed in
the type index under its `result` (the type it produces, not its own name),
and each function is filed in the function index under its `result`. -/
theorem index_grouped_by_result (objs : List TLObject) (t : TLObject)
    (hmem : t ∈ objs) :
    (t.is_function = false →
      ∃ cs, dictFind (tltypes objs) t.result = some cs ∧ t ∈ cs) ∧
    (t.is_function = true →
      ∃ cs, dictFind (tlfunctions objs) t.result = some cs ∧ t ∈ cs) :=
  foldl_indexStep_mem objs ([], []) t hmem

/-- Witness for the amended C2 at the one-constructor collection. -/
theorem index_grouped_by_result_witness :
    sampleCtor ∈ [sampleCtor] ∧
    (sampleCtor.is_function = false →
      ∃ cs, dictFind (tltypes [sampleCtor]) sampleCtor.result = some cs ∧ sampleCtor ∈ cs) :=
  ⟨by decide, (index_grouped_by_result [sampleCtor] sampleCtor (by simp)).1⟩

/-- A separator-free character list splits into the single part made of the
accumulator followed by the list. -/
theorem splitSepAux_no_sep (sep : Char) (l acc : List Char) (h : sep ∉ l) :
    splitSepAux sep l acc = [String.mk (acc.reverse ++ l)] := by
  induction l generalizing acc with
  | nil => simp [splitSepAux]
  | cons c rest ih =>
    have hc : ¬ c = sep := fun hh => h (hh ▸ List.mem_cons_self c rest)
    have hrest : sep ∉ rest := fun hh => h (List.mem_cons_of_mem _ hh)
    simp only [splitSepAux, if_neg hc]
    rw [ih (c :: acc) hrest]
    simp

/-- Splitting distributes over a separator occurrence: the parts before the
separator, then the parts after it. -/
theorem splitSepAux_append_sep (sep : Char) (l1 l2 acc : List Char) :
    splitSepAux sep (l1 ++ sep :: l2) acc =
      splitSepAux sep l1 acc ++ splitSepAux sep l2 [] := by
  induction l1 generalizing acc with
  | nil => simp [splitSepAux]
  | cons c rest ih =>
    by_cases hc : c = sep
    · subst hc
      simp [splitSepAux, ih]
    · simp [splitSepAux, hc, ih]

/-- The number of parts is the number of separators plus one. -/
theorem splitSepAux_length (sep : Char) (l acc : List Char) :
    (splitSepAux sep l acc).length = l.count sep + 1 := by
  induction l generalizing acc with
  | nil => simp [splitSepAux]
  | cons c rest ih =>
    by_cases hc : c = sep
    · subst hc
      simp [splitSepAux, ih, List.count_cons]
    · simp [splitSepAux, hc, ih, List.count_cons]

/-- The part count of `splitOnDot` is the dot count plus one. -/
theorem splitOnDot_length (s : String) :
    (splitOnDot s).length = s.toList.count '.' + 1 :=
  splitSepAux_length '.' s.toList []

/-- Splitting a dotted concatenation of two dot-free strings gives exactly
the two strings back. -/
theorem splitOnDot_pair (ns nm : String) (hns : '.' ∉ ns.toList) (hnm : '.' ∉ nm.toList) :
    splitOnDot (ns ++ "." ++ nm) = [ns, nm] := by
  have hsplit : (ns ++ "." ++ nm).toList = ns.toList ++ '.' :: nm.toList := by
    show (ns.toList ++ ".".toList) ++ nm.toList = _
    simp
  unfold splitOnDot splitOnChar
  rw [hsplit, splitSepAux_append_sep, splitSepAux_no_sep '.' ns.toList [] hns,
      splitSepAux_no_sep '.' nm.toList [] hnm]
  simp

/-- Claim C10: `get_path_for_type` is partial on malformed keys — a non-core
key holding two or more dots makes the two-way namespace/name destructuring
fail (`none`), while a non-core key with at most one dot always resolves. -/
theorem type_key_dot_partiality (t relative_to : String) (isfile : String → Bool)
    (hcore : coreTypes.contains (strLower t) = false) :
    (2 ≤ t.toList.count '.' → get_path_for_type isfile t relative_to = none) ∧
    (t.toList.count '.' ≤ 1 → (get_path_for_type isfile t relative_to).isSome = true) := by
  have hlen : (splitOnDot t).length = t.toList.count '.' + 1 := splitOnDot_length t
  constructor
  · intro h2
    have hpos : 0 < t.toList.count '.' := by omega
    have hmem : '.' ∈ t.toList := List.count_pos_iff.mp hpos
    have hcon : t.toList.contains '.' = true := List.elem_eq_true_of_mem hmem
    unfold get_path_for_type
    rw [hcore, hcon]
    simp only [Bool.false_eq_true, if_false, if_true]
    have hge : 3 ≤ (splitOnDot t).length := by omega
    rcases hsp : splitOnDot t with _ | ⟨a, tl⟩
    · rfl
    · cases tl with
      | nil => rfl
      | cons b r =>
        cases r with
        | nil =>
          rw [hsp] at hge
          simp only [List.length_cons, List.length_nil] at hge
          omega
        | cons c r2 => rfl
  · intro h1
    unfold get_path_for_type
    rw [hcore]
    simp only [Bool.false_eq_true, if_false]
    cases hcon : t.toList.contains '.' with
    | false => simp
    | true =>
      have hmem : '.' ∈ t.toList := List.mem_of_elem_eq_true hcon
      have hcount : 0 < t.toList.count '.' := List.count_pos_iff.mpr hmem
      have hlen2 : (splitOnDot t).length = 2 := by omega
      rcases hsp : splitOnDot t with _ | ⟨a, tl⟩
      · rw [hsp] at hlen2; simp at hlen2
      · cases tl with
        | nil => rw [hsp] at hlen2; simp at hlen2
        | cons b r =>
          cases r with
          | nil => rfl
          | cons c r2 =>
            rw [hsp] at hlen2
            simp only [List.length_cons] at hlen2
            omega

/-- Witness for C10 at the malformed key `a.b.c` and the well-formed keys
`ns.Foo` and `Foo`. -/
theorem type_key_dot_partiality_witness :
    coreTypes.contains (strLower "a.b.c") = false ∧
    get_path_for_type (fun _ => false) "a.b.c" "." = none ∧
    (get_path_for_type (fun _ => false) "ns.Foo" ".").isSome = true :=
  ⟨by decide,
   (type_key_dot_partiality "a.b.c" "." (fun _ => false) (by decide)).1 (by decide),
   (type_key_dot_partiality "ns.Foo" "." (fun _ => false) (by decide)).2 (by decide)⟩

/-- Claim C8: a non-core namespaced key `ns.Foo` (one dot, neither side
holding further dots) targets `types/ns/` with file name
`get_file_name "Foo" true`, and a non-core bare key `Foo` targets
`types/get_file_name "Foo" true`; the target is then rebased on
`relative_to`. -/
theorem non_core_type_targets :
    (∀ (ns nm relative_to : String) (isfile : String → Bool),
      coreTypes.contains (strLower (ns ++ "." ++ nm)) = false →
      '.' ∉ ns.toList → '.' ∉ nm.toList →
      get_path_for_type isfile (ns ++ "." ++ nm) relative_to =
        some (get_relative_path isfile
          ("types/" ++ ns ++ "/" ++ get_file_name nm true) relative_to)) ∧
    (∀ (key relative_to : String) (isfile : String → Bool),
      coreTypes.contains (strLower key) = false →
      '.' ∉ key.toList →
      get_path_for_type isfile key relative_to =
        some (get_relative_path isfile
          ("types/" ++ get_file_name key true) relative_to)) := by
  constructor
  · intro ns nm relative_to isfile hcore hns hnm
    have hmem : '.' ∈ (ns ++ "." ++ nm).toList := by
      show '.' ∈ (ns.toList ++ ".".toList) ++ nm.toList
      simp
    have hcon : (ns ++ "." ++ nm).toList.contains '.' = true :=
      List.elem_eq_true_of_mem hmem
    unfold get_path_for_type
    rw [hcore, hcon, splitOnDot_pair ns nm hns hnm]
    simp
  · intro key relative_to isfile hcore hdot
    have hcon : key.toList.contains '.' = false := by
      cases h : key.toList.contains '.' with
      | false => rfl
      | true => exact absurd (List.mem_of_elem_eq_true h) hdot
    unfold get_path_for_type
    rw [hcore, hcon]
    simp

/-- ASCII lower-casing maps no character other than `/` itself to `/`: an
upper-case letter lowers into `a`–`z`, and every other character is kept. -/
theorem asciiLower_to_slash {x : Char} (h : asciiLower x = '/') : x = '/' := by
  unfold asciiLower at h
  split at h
  · exfalso
    rename_i hu
    have hA : 'A' ≤ x ∧ x ≤ 'Z' := by simpa [isUpperA] using hu
    have h1 : 65 ≤ x.toNat := hA.1
    have h2 : x.toNat ≤ 90 := hA.2
    have hv : (Char.ofNat (x.toNat + 32)).toNat = x.toNat + 32 := by
      unfold Char.ofNat
      split
      · rfl
      · rename_i hbad
        exact absurd (Or.inl (by omega)) hbad
    have hc := congrArg Char.toNat h
    rw [hv] at hc
    have : x.toNat + 32 = 47 := by simpa using hc
    omega
  · exact h

/-- Every character emitted by the first regex pass is a character of the
input or the inserted underscore. -/
theorem pass1F_mem (fuel : Nat) (l : List Char) (c : Char)
    (h : c ∈ pass1F fuel l) : c ∈ l ∨ c = '_' := by
  induction fuel generalizing l with
  | zero => exact Or.inl h
  | succ fuel ih =>
    match l with
    | [] => simp [pass1F] at h
    | [x] =>
      simp [pass1F] at h
      simp [h]
    | x :: u :: more =>
      simp only [pass1F] at h
      split at h
      · rcases List.mem_cons.mp h with h1 | h1
        · exact Or.inl (by simp [h1])
        · rcases List.mem_cons.mp h1 with h2 | h2
          · exact Or.inr h2
          · rcases List.mem_cons.mp h2 with h3 | h3
            · exact Or.inl (by simp [h3])
            · rcases List.mem_append.mp h3 with h4 | h4
              · have : c ∈ more := (List.takeWhile_sublist _).mem h4
                exact Or.inl (by simp [this])
              · rcases ih _ h4 with h5 | h5
                · have : c ∈ more := (List.dropWhile_sublist _).mem h5
                  exact Or.inl (by simp [this])
                · exact Or.inr h5
      · rcases List.mem_cons.mp h with h1 | h1
        · exact Or.inl (by simp [h1])
        · rcases ih _ h1 with h2 | h2
          · exact Or.inl (by simp [List.mem_cons.mp h2])
          · exact Or.inr h2

/-- Every character emitted by the second regex pass is a character of the
input or the inserted underscore. -/
theorem pass2F_mem (fuel : Nat) (l : List Char) (c : Char)
    (h : c ∈ pass2F fuel l) : c ∈ l ∨ c = '_' := by
  induction fuel generalizing l with
  | zero => exact Or.inl h
  | succ fuel ih =>
    match l with
    | [] => simp [pass2F] at h
    | [x] =>
      simp [pass2F] at h
      simp [h]
    | x :: u :: more =>
      simp only [pass2F] at h
      split at h
      · rcases List.mem_cons.mp h with h1 | h1
        · exact Or.inl (by simp [h1])
        · rcases List.mem_cons.mp h1 with h2 | h2
          · exact Or.inr h2
          · rcases List.mem_cons.mp h2 with h3 | h3
            · exact Or.inl (by simp [h3])
            · rcases ih _ h3 with h4 | h4
              · exact Or.inl (by simp [h4])
              · exact Or.inr h4
      · rcases List.mem_cons.mp h with h1 | h1
        · exact Or.inl (by simp [h1])
        · rcases ih _ h1 with h2 | h2
          · exact Or.inl (by simp [List.mem_cons.mp h2])
          · exact Or.inr h2

/-- The file-name transform introduces no `/`: its output consists of
lower-cased input characters, underscores and the `.html` suffix. -/
theorem get_file_name_no_slash (name : String) (h : '/' ∉ name.toList) :
    '/' ∉ (get_file_name name true).toList := by
  intro hmem
  have hform : (get_file_name name true).toList =
      (List.map asciiLower (pass2 (pass1 name.toList))) ++ ".html".toList := rfl
  rw [hform] at hmem
  rcases List.mem_append.mp hmem with hL | hR
  · obtain ⟨x, hx, hax⟩ := List.mem_map.mp hL
    have hx' : x = '/' := asciiLower_to_slash hax
    subst hx'
    rcases pass2F_mem _ _ _ hx with h2 | h2
    · rcases pass1F_mem _ _ _ h2 with h1 | h1
      · exact h h1
      · exact absurd h1 (by decide)
    · exact absurd h2 (by decide)
  · exact absurd hR (by decide)

/-- A string carrying the `.html` suffix is neither empty nor the
one-character path `.`. -/
theorem append_html_ne (s : String) : s ++ ".html" ≠ "" ∧ s ++ ".html" ≠ "." := by
  constructor <;> intro h <;> have hl := congrArg String.toList h
  · have : s.toList ++ ".html".toList = [] := hl
    have := (List.append_eq_nil.mp this).2
    simp at this
  · have : s.toList ++ ".html".toList = ['.'] := hl
    have hlen := congrArg List.length this
    simp at hlen

/-- Dropping while a predicate holds skips a whole prefix on which it
holds everywhere. -/
theorem dropWhile_append_of_all (p : Char → Bool) (l1 l2 : List Char)
    (h : ∀ c ∈ l1, p c = true) :
    (l1 ++ l2).dropWhile p = l2.dropWhile p := by
  induction l1 with
  | nil => rfl
  | cons c rest ih =>
    simp only [List.cons_append, List.dropWhile_cons, h c (by simp), if_true]
    exact ih (fun x hx => h x (by simp [hx]))

/-- A slash-free string does not start with a slash. -/
theorem startsWithSlash_false (s : String) (h : '/' ∉ s.toList) :
    startsWithSlash s = false := by
  unfold startsWithSlash
  cases hs : s.toList with
  | nil => rfl
  | cons c r =>
    have : c ∈ s.toList := by rw [hs]; exact List.mem_cons_self c r
    have hc : ¬ c = '/' := fun hh => h (hh ▸ this)
    simp [hc]

/-- A string whose last character (head of the reversal) is not a slash
does not end with a slash. -/
theorem endsWithSlash_false_of_rev (s : String) (d : Char) (ds : List Char)
    (hrev : s.toList.reverse = d :: ds) (hd : d ≠ '/') :
    endsWithSlash s = false := by
  unfold endsWithSlash
  rw [hrev]
  simp [hd]

/-- Witness for C8 at `contacts.Link` and at the bare key `User`. -/
theorem non_core_type_targets_witness :
    coreTypes.contains (strLower ("contacts" ++ "." ++ "Link")) = false ∧
    get_path_for_type (fun _ => false) ("contacts" ++ "." ++ "Link") "." =
      some (get_relative_path (fun _ => false)
        ("types/" ++ "contacts" ++ "/" ++ get_file_name "Link" true) ".") ∧
    get_path_for_type (fun _ => false) "User" "." =
      some (get_relative_path (fun _ => false)
        ("types/" ++ get_file_name "User" true) ".") :=
  ⟨by decide,
   non_core_type_targets.1 "contacts" "Link" "." (fun _ => false)
     (by decide) (by decide) (by decide),
   non_core_type_targets.2 "User" "." (fun _ => false) (by decide) (by decide)⟩

/-- Witness for C7 at lists of length zero, one and three. -/
theorem count_sentences_witness :
    constructorsSentence [] = "This type has no constructors available." ∧
    constructorsSentence [sampleCtor] = "This type has one constructor available." ∧
    constructorsSentence [sampleCtor, sampleCtor, sampleCtor] = "This type has 3 constructors available." ∧
    methodsSentence [] = "No method returns this type." ∧
    methodsSentence [sampleFn] = "Only the following method returns this type." ∧
    methodsSentence [sampleFn, sampleFn, sampleFn] = "The following 3 methods return this type as a result." := by
  refine ⟨(count_sentences [] []).1 rfl,
          (count_sentences [sampleCtor] []).2.1 rfl,
          ?_,
          (count_sentences [] []).2.2.2.1 rfl,
          (count_sentences [] [sampleFn]).2.2.2.2.1 rfl,
          ?_⟩
  · have h := (count_sentences [sampleCtor, sampleCtor, sampleCtor] []).2.2.1 (by decide)
    simpa using h
  · have h := (count_sentences [] [sampleFn, sampleFn, sampleFn]).2.2.2.2.2 (by decide)
    simpa using h

/-- The character list of `dir ++ "/" ++ fname`. -/
theorem toList_dir_slash (dir fname : String) :
    (dir ++ "/" ++ fname).toList = dir.toList ++ '/' :: fname.toList := by
  show (dir.toList ++ ['/']) ++ fname.toList = dir.toList ++ '/' :: fname.toList
  simp

/-- `dirname` of a directory joined with a slash-free file name gives the
directory back, provided the directory itself does not end in a slash. -/
theorem dirname_append (dir fname : String) (hf : '/' ∉ fname.toList)
    (d : Char) (ds : List Char) (hrev : dir.toList.reverse = d :: ds) (hd : d ≠ '/') :
    dirname (dir ++ "/" ++ fname) = dir := by
  have hhead : dirnameHead (dir ++ "/" ++ fname) = dir.toList ++ ['/'] := by
    unfold dirnameHead
    rw [toList_dir_slash]
    have hrev2 : (dir.toList ++ '/' :: fname.toList).reverse =
        fname.toList.reverse ++ '/' :: dir.toList.reverse := by
      simp
    rw [hrev2]
    have hdrop : (fname.toList.reverse ++ '/' :: dir.toList.reverse).dropWhile
        (fun c => c ≠ '/') = '/' :: dir.toList.reverse := by
      rw [dropWhile_append_of_all]
      · simp [List.dropWhile]
      · intro c hc
        have hmem : c ∈ fname.toList := List.mem_reverse.mp hc
        have : ¬ c = '/' := fun hh => hf (hh ▸ hmem)
        simp [this]
    rw [hdrop]
    simp
  have hdmem : d ∈ dir.toList := by
    have : d ∈ dir.toList.reverse := by rw [hrev]; exact List.mem_cons_self d ds
    exact List.mem_reverse.mp this
  have hall : ((dir.toList ++ ['/']).all (fun c => c = '/')) = false :=
    List.all_eq_false.mpr
      ⟨d, List.mem_append.mpr (Or.inl hdmem), by simp [hd]⟩
  unfold dirname
  rw [hhead, hall]
  simp only [Bool.false_eq_true, if_false]
  have hr : (dir.toList ++ ['/']).reverse = '/' :: dir.toList.reverse := by simp
  rw [hr]
  have hdw : ('/' :: dir.toList.reverse).dropWhile (fun c => c = '/') =
      dir.toList.reverse.dropWhile (fun c => c = '/') := by
    simp [List.dropWhile]
  rw [hdw, hrev]
  have hdw2 : ((d :: ds).dropWhile (fun c => c = '/')) = d :: ds := by
    simp [List.dropWhile, hd]
  rw [hdw2, ← hrev]
  simp

/-- The common prefix of a list with itself extended is the whole list. -/
theorem commonPrefixLen_self_append (sl rest : List String) :
    commonPrefixLen sl (sl ++ rest) = sl.length := by
  induction sl with
  | nil => cases rest <;> rfl
  | cons a as ih => simp [commonPrefixLen, ih]

/-- The relative path from a directory to a slash-free file directly inside
it is the bare file name. -/
theorem relpath_dir_file (dir fname : String) (hf : '/' ∉ fname.toList)
    (h1 : fname ≠ "") (h2 : fname ≠ ".") :
    relpath (dir ++ "/" ++ fname) dir = fname := by
  have hsingle : pathComponents fname = [fname] := by
    unfold pathComponents splitOnChar
    rw [splitSepAux_no_sep '/' fname.toList [] hf]
    simp [h1, h2]
  have hcomp : pathComponents (dir ++ "/" ++ fname) = pathComponents dir ++ [fname] := by
    unfold pathComponents splitOnChar
    rw [toList_dir_slash, splitSepAux_append_sep, List.filter_append]
    rw [show List.filter (fun s => s ≠ "" && s ≠ ".") (splitSepAux '/' fname.toList []) =
          [fname] from hsingle]
  have hparts : relParts (dir ++ "/" ++ fname) dir = [fname] := by
    unfold relParts
    rw [hcomp, commonPrefixLen_self_append]
    simp [List.drop_left]
  unfold relpath
  rw [hparts]
  simp [joinPath]

/-- A self-link from a file inside a directory resolves to the bare file
name: the `isfile` test rebases onto the containing directory, and the
relative path from there is the file name alone. -/
theorem get_relative_path_self (dir fname : String) (isfile : String → Bool)
    (hf : '/' ∉ fname.toList) (h1 : fname ≠ "") (h2 : fname ≠ ".")
    (d : Char) (ds : List Char) (hrev : dir.toList.reverse = d :: ds) (hd : d ≠ '/')
    (hfile : isfile (dir ++ "/" ++ fname) = true) :
    get_relative_path isfile (dir ++ "/" ++ fname) (dir ++ "/" ++ fname) = fname := by
  unfold get_relative_path
  rw [hfile]
  simp only [if_true]
  rw [dirname_append dir fname hf d ds hrev hd]
  exact relpath_dir_file dir fname hf h1 h2

/-- A string whose reversed character list is non-empty is non-empty. -/
theorem ne_empty_of_rev (s : String) (d : Char) (ds : List Char)
    (hrev : s.toList.reverse = d :: ds) : s ≠ "" := by
  intro h
  subst h
  simp at hrev

/-- The output directory of any object ends in a non-slash character,
provided the namespace holds no slash. -/
theorem tlOutDir_rev (t : TLObject) (hns : '/' ∉ t.nspace.toList) :
    ∃ d ds, (tlOutDir t).toList.reverse = d :: ds ∧ d ≠ '/' := by
  unfold tlOutDir
  by_cases hnsp : t.nspace = ""
  · rw [if_neg (by simp [hnsp])]
    cases hfn : t.is_function
    · exact ⟨'s', "rotcurtsnoc".toList, by simp, by decide⟩
    · exact ⟨'s', "dohtem".toList, by simp, by decide⟩
  · rw [if_pos (by simp [hnsp])]
    have hm : endsWithSlash "methods" = false := by decide
    have hc : endsWithSlash "constructors" = false := by decide
    have hroot : ∀ b : Bool,
        pathJoin (if b then "methods" else "constructors") t.nspace =
          (if b then "methods" else "constructors") ++ "/" ++ t.nspace := by
      intro b
      unfold pathJoin
      rw [startsWithSlash_false _ hns]
      cases b <;> simp [hm, hc]
    rw [hroot]
    have hnsl : t.nspace.toList ≠ [] := by
      intro h
      apply hnsp
      have := congrArg String.mk h
      simpa using this
    rcases hnr : t.nspace.toList.reverse with _ | ⟨d, ds⟩
    · exact absurd (by simpa using congrArg List.reverse hnr) hnsl
    · have hd : d ≠ '/' := by
        intro h
        subst h
        have : '/' ∈ t.nspace.toList.reverse := by
          rw [hnr]; exact List.mem_cons_self _ _
        exact hns (List.mem_reverse.mp this)
      refine ⟨d, ds ++ '/' :: (if t.is_function then "methods" else "constructors").toList.reverse, ?_, hd⟩
      have hnr' : t.nspace.data.reverse = d :: ds := hnr
      rw [toList_dir_slash]
      simp [hnr']

/-- The output path of an object is its output directory, a slash, and the
extended file name. -/
theorem get_create_path_eq (t : TLObject) (hname : '/' ∉ t.name.toList)
    (hns : '/' ∉ t.nspace.toList) :
    get_create_path_for t = tlOutDir t ++ "/" ++ get_file_name t.name true := by
  obtain ⟨d, ds, hrev, hd⟩ := tlOutDir_rev t hns
  have hfsl : '/' ∉ (get_file_name t.name true).toList := get_file_name_no_slash _ hname
  unfold get_create_path_for pathJoin
  rw [show get_file_name_obj t true = get_file_name t.name true from rfl]
  rw [startsWithSlash_false _ hfsl, endsWithSlash_false_of_rev _ d ds hrev hd]
  have : tlOutDir t ≠ "" := ne_empty_of_rev _ d ds hrev
  simp [this]

/-- Claim C3: for every schema object whose identifier and namespace are
slash-free, computing the relative path of the object's own output path
against that same output path (which exists on disk, having just been
created) yields the bare extended file name — a page linking to itself
resolves to just its file name, with no directory traversal. -/
theorem self_link_bare_file_name (t : TLObject) (isfile : String → Bool)
    (hfile : isfile (get_create_path_for t) = true)
    (hname : '/' ∉ t.name.toList)
    (hns : '/' ∉ t.nspace.toList) :
    get_relative_path isfile (get_create_path_for t) (get_create_path_for t) =
      get_file_name_obj t true := by
  have hsplit : get_file_name t.name true = get_file_name t.name false ++ ".html" := by
    simp [get_file_name]
  have hfsl : '/' ∉ (get_file_name t.name true).toList := get_file_name_no_slash _ hname
  have hne1 : get_file_name t.name true ≠ "" := by
    rw [hsplit]; exact (append_html_ne _).1
  have hne2 : get_file_name t.name true ≠ "." := by
    rw [hsplit]; exact (append_html_ne _).2
  obtain ⟨d, ds, hrev, hd⟩ := tlOutDir_rev t hns
  have hpath := get_create_path_eq t hname hns
  rw [hpath] at hfile ⊢
  exact get_relative_path_self (tlOutDir t) (get_file_name t.name true) isfile
    hfsl hne1 hne2 d ds hrev hd hfile

/-- Witness for C3 at the namespaced constructor
`contacts.resolvedPeer`, with the filesystem oracle holding exactly its
output file. -/
theorem self_link_bare_file_name_witness :
    (fun s => s = "constructors/contacts/resolved_peer.html" : String → Bool)
        (get_create_path_for
          { name := "resolvedPeer", nspace := "contacts", is_function := false,
            result := "contacts.ResolvedPeer", args := [] }) = true ∧
    get_relative_path (fun s => s = "constructors/contacts/resolved_peer.html")
        (get_create_path_for
          { name := "resolvedPeer", nspace := "contacts", is_function := false,
            result := "contacts.ResolvedPeer", args := [] })
        (get_create_path_for
          { name := "resolvedPeer", nspace := "contacts", is_function := false,
            result := "contacts.ResolvedPeer", args := [] }) =
      get_file_name_obj
        { name := "resolvedPeer", nspace := "contacts", is_function := false,
          result := "contacts.ResolvedPeer", args := [] } true :=
  ⟨by decide,
   self_link_bare_file_name
     { name := "resolvedPeer", nspace := "contacts", is_function := false,
       result := "contacts.ResolvedPeer", args := [] }
     (fun s => s = "constructors/contacts/resolved_peer.html")
     (by decide) (by decide) (by decide)⟩

end Generate
